import Mathlib

/-!
Shallow embedding of the `turtles` crate (src/lib.rs).

The crate scans a sequence of numeric steps and reports the first step that
is not the sum of two distinct occurrences from the window of the
`tunnel_len` preceding steps.  The in-repo instantiation uses `u128`; we
embed the numeric type as `Nat`.

The Rust `BTreeMap<T, VecDeque<usize>>` (value -> FIFO of ages, iterated in
ascending key order) is embedded as a strictly key-sorted association list
`List (Nat x List Nat)`; the per-key `VecDeque` is a `List Nat` whose head
is the deque front.
-/

set_option maxHeartbeats 1000000

/-- Embedding of the map `BTreeMap<T, VecDeque<usize>>`: association list of
(value, ages-queue) pairs kept in ascending key order. -/
abbrev TunnelMap := List (Nat × List Nat)

/-- Embedding of `SortedTunnel` (lib.rs lines 100-109): the map plus the stored
`tunnel_length` field (set to `tunnel.len() - 1` at construction). -/
structure SortedTunnel where
  tunnel_map : TunnelMap
  tunnel_length : Nat
deriving DecidableEq

/-- Embedding of `IndexedStep` (lib.rs lines 13-20). -/
structure IndexedStep where
  step : Nat
  index : Nat
deriving DecidableEq

/-- Embedding of `add_duplicate` (lib.rs lines 116-121): `BTreeMap::entry`
pushes the age at the back of an existing key's queue, or inserts a fresh
singleton queue at the key's sorted position. -/
def add_duplicate : TunnelMap → Nat → Nat → TunnelMap
  | [], step, age => [(step, [age])]
  | (k, ages) :: rest, step, age =>
    if step < k then (step, [age]) :: (k, ages) :: rest
    else if step = k then (k, ages ++ [age]) :: rest
    else (k, ages) :: add_duplicate rest step age

/-- Embedding of the seeding loop in `SortedTunnel::new` (lib.rs lines 131-133):
`for (age, step) in tunnel.iter().enumerate() { add_duplicate(*step, age) }`. -/
def seed_steps : TunnelMap → Nat → List Nat → TunnelMap
  | m, _, [] => m
  | m, age, step :: rest => seed_steps (add_duplicate m step age) (age + 1) rest

/-- Embedding of `SortedTunnel::new` (lib.rs lines 126-135).  The Rust field
initialiser is `tunnel_length: tunnel.len() - 1`, a `usize` subtraction that
underflows when `tunnel` is empty; the truncated `Nat` subtraction is used
here and the underflow condition is tracked by `new_len_sub_underflows`. -/
def SortedTunnel.new (tunnel : List Nat) : SortedTunnel :=
  { tunnel_map := seed_steps [] 0 tunnel, tunnel_length := tunnel.length - 1 }

/-- Holds exactly when the `tunnel.len() - 1` computed inside
`SortedTunnel::new` (lib.rs line 129) underflows `usize`. -/
def new_len_sub_underflows (tunnel : List Nat) : Bool := tunnel.length == 0

/-- Embedding of the search loop of `remove_oldest_step` (lib.rs lines 140-146):
first key (in ascending order) whose ages queue contains 0. -/
def find_oldest : TunnelMap → Option Nat
  | [] => none
  | (k, ages) :: rest => if 0 ∈ ages then some k else find_oldest rest

/-- Embedding of `ages_ref.pop_front()` followed by the empty-queue entry
removal (lib.rs lines 148-153), at the key found by `find_oldest`. -/
def pop_front_at : TunnelMap → Nat → TunnelMap
  | [], _ => []
  | (k, ages) :: rest, target =>
    if k = target then
      if ages.tail.isEmpty then rest else (k, ages.tail) :: rest
    else (k, ages) :: pop_front_at rest target

/-- Embedding of the age decrement sweep (lib.rs lines 155-157):
`values_mut().for_each(|ages| ages.iter_mut().for_each(|age| *age -= 1))`.
The `usize` decrement underflows on an age 0; `Nat` subtraction truncates,
and the relevant theorems show every decremented age is at least 1. -/
def dec_ages (m : TunnelMap) : TunnelMap :=
  m.map fun p => (p.1, p.2.map fun a => a - 1)

/-- Embedding of `remove_oldest_step` (lib.rs lines 138-159).  `none` is the
`panic!` branch reached when no occurrence has age 0. -/
def SortedTunnel.remove_oldest_step (st : SortedTunnel) : Option SortedTunnel :=
  match find_oldest st.tunnel_map with
  | some k =>
      some { st with tunnel_map := dec_ages (pop_front_at st.tunnel_map k) }
  | none => none

/-- Embedding of `shift_right` (lib.rs lines 162-165): evict the oldest
occurrence then insert the new step with age `self.tunnel_length`. -/
def SortedTunnel.shift_right (st : SortedTunnel) (new_step : Nat) : Option SortedTunnel :=
  match st.remove_oldest_step with
  | some st1 =>
      some { st1 with tunnel_map := add_duplicate st1.tunnel_map new_step st.tunnel_length }
  | none => none

/-- Embedding of the inner loop of `is_tunnel_safe` (lib.rs lines 177-183):
scan the keys after `a` in ascending order; `Equal` returns true, `Greater`
abandons the inner loop (continue 'outer), `Less` keeps scanning. -/
def pair_scan (a c : Nat) : TunnelMap → Bool
  | [] => false
  | (b, _) :: rest =>
    if a + b = c then true
    else if c < a + b then false
    else pair_scan a c rest

/-- Embedding of the outer loop of `is_tunnel_safe` (lib.rs lines 169-186):
keys in ascending order; a key at or above the candidate returns false, a
duplicated key equal to half the candidate returns true, otherwise the
inner scan runs over the remaining larger keys. -/
def safe_scan (c : Nat) : TunnelMap → Bool
  | [] => false
  | (a, ages) :: rest =>
    if c ≤ a then false
    else if 1 < ages.length ∧ a * 2 = c then true
    else if pair_scan a c rest then true
    else safe_scan c rest

/-- Embedding of `is_tunnel_safe` (lib.rs lines 168-187). -/
def SortedTunnel.is_tunnel_safe (st : SortedTunnel) (new_step : Nat) : Bool :=
  safe_scan new_step st.tunnel_map

/-- State-passing form of the method call `self.is_tunnel_safe(step)`: the
receiver is taken by shared borrow (`&self`, lib.rs line 168), so the call
yields its boolean result together with the untouched receiver state. -/
def is_tunnel_safe_call (st : SortedTunnel) (new_step : Nat) : Bool × SortedTunnel :=
  (st.is_tunnel_safe new_step, st)

/-- Embedding of the scan loop of `get_critical_number` (lib.rs lines 67-76),
with `idx` the absolute index of the next element (`index + tunnel_len` in
the Rust source).  The outer `none` is the propagated eviction panic. -/
def scan_steps : SortedTunnel → Nat → List Nat → Option (Option IndexedStep)
  | _, _, [] => some none
  | st, idx, step :: rest =>
    if st.is_tunnel_safe step then
      match st.shift_right step with
      | some st1 => scan_steps st1 (idx + 1) rest
      | none => none
    else some (some { step := step, index := idx })

/-- The vector passed to `SortedTunnel::new` by `get_critical_number`, when
that call happens: the first `tunnel_len` values, guarded by the emptiness
peek on the remaining iterator (lib.rs lines 57-65). -/
def seed_arg (values : List Nat) (tunnel_len : Nat) : Option (List Nat) :=
  if values.drop tunnel_len = [] then none else some (values.take tunnel_len)

/-- Embedding of `get_critical_number` (lib.rs lines 52-79).  The outer
`Option` distinguishes normal completion (`some`) from the eviction panic
(`none`); the inner `Option IndexedStep` is the Rust return value. -/
def get_critical_number (values : List Nat) (tunnel_len : Nat) :
    Option (Option IndexedStep) :=
  match seed_arg values tunnel_len with
  | none => some none
  | some tunnel =>
      scan_steps (SortedTunnel.new tunnel) tunnel_len (values.drop tunnel_len)

/-- Iterated `shift_right`, used to name the window state the scan holds
after consuming a given prefix of the post-seed values. -/
def shift_all : SortedTunnel → List Nat → Option SortedTunnel
  | st, [] => some st
  | st, v :: rest =>
    match st.shift_right v with
    | some st1 => shift_all st1 rest
    | none => none

/-- The window state immediately preceding the element at absolute index `i`
during `get_critical_number values wl`: the seeded window shifted through
the post-seed values strictly before index `i`. -/
def window_at (values : List Nat) (wl i : Nat) : Option SortedTunnel :=
  shift_all (SortedTunnel.new (values.take wl)) ((values.drop wl).take (i - wl))

/-- All live occurrences of the window, as (value, age) pairs in map order. -/
def occs (m : TunnelMap) : List (Nat × Nat) :=
  m.flatMap fun p => p.2.map fun a => (p.1, a)

/-- All live ages of the window, in map order. -/
def ages_of (m : TunnelMap) : List Nat := m.flatMap Prod.snd

/-- The keys of the window map, in map order. -/
def keys_of (m : TunnelMap) : List Nat := m.map Prod.fst

/-- Two occurrences of the window, distinct by age (occurrence identity),
sum to the candidate `c`. -/
def HasPair (m : TunnelMap) (c : Nat) : Prop :=
  ∃ p ∈ occs m, ∃ q ∈ occs m, p.2 ≠ q.2 ∧ p.1 + q.1 = c

instance (m : TunnelMap) (c : Nat) : Decidable (HasPair m c) := by
  unfold HasPair; infer_instance

/-- Window states produced by seeding with `N` values and any number of
successful shifts — exactly the states arising under correct use. -/
inductive Reachable (N : Nat) : SortedTunnel → Prop
  | seed (tunnel : List Nat) (h : tunnel.length = N) :
      Reachable N (SortedTunnel.new tunnel)
  | shift (st st1 : SortedTunnel) (v : Nat) (h1 : Reachable N st)
      (h2 : st.shift_right v = some st1) : Reachable N st1

/-- Well-formedness of a window holding `N` occurrences: stored length field,
strictly sorted keys, nonempty strictly ascending age queues, and ages a
permutation of `0..N-1`. -/
structure TunnelWF (N : Nat) (st : SortedTunnel) : Prop where
  tl : st.tunnel_length = N - 1
  keys : (keys_of st.tunnel_map).Pairwise (· < ·)
  ne : ∀ p ∈ st.tunnel_map, p.2 ≠ []
  asort : ∀ p ∈ st.tunnel_map, p.2.Pairwise (· < ·)
  perm : (ages_of st.tunnel_map).Perm (List.range N)

/-! ## Scan-driver basics -/

lemma seed_arg_eq_some {values : List Nat} {wl : Nat} {t : List Nat}
    (h : seed_arg values wl = some t) :
    t = values.take wl ∧ values.drop wl ≠ [] := by
  unfold seed_arg at h
  by_cases hd : values.drop wl = []
  · simp [hd] at h
  · rw [if_neg hd] at h
    exact ⟨(Option.some.inj h).symm, hd⟩

lemma seed_arg_drop_ne {values : List Nat} {wl : Nat} {t : List Nat}
    (h : seed_arg values wl = some t) : wl < values.length := by
  rcases seed_arg_eq_some h with ⟨-, hd⟩
  by_contra hc
  exact hd (List.drop_eq_nil_of_le (by omega))

lemma scan_steps_index :
    ∀ (rest : List Nat) (st : SortedTunnel) (idx : Nat) (x : IndexedStep),
      scan_steps st idx rest = some (some x) →
      idx ≤ x.index ∧ x.index - idx < rest.length ∧ rest[x.index - idx]? = some x.step
  | [], st, idx, x => by simp [scan_steps]
  | v :: rest, st, idx, x => by
    intro h
    rw [scan_steps] at h
    by_cases hs : st.is_tunnel_safe v
    · rw [if_pos hs] at h
      cases hsr : st.shift_right v with
      | none => rw [hsr] at h; exact absurd h (by simp)
      | some st1 =>
        rw [hsr] at h
        obtain ⟨h1, h2, h3⟩ := scan_steps_index rest st1 (idx + 1) x h
        refine ⟨by omega, by simp only [List.length_cons]; omega, ?_⟩
        have hix : x.index - idx = (x.index - (idx + 1)) + 1 := by omega
        rw [hix]
        simpa using h3
    · rw [if_neg hs] at h
      have hx : x = { step := v, index := idx } := by
        cases h; rfl
      subst hx
      simp

lemma get_critical_number_index {values : List Nat} {wl : Nat} {x : IndexedStep}
    (h : get_critical_number values wl = some (some x)) :
    wl ≤ x.index ∧ x.index < values.length ∧ values[x.index]? = some x.step := by
  cases hsa : seed_arg values wl with
  | none => simp [get_critical_number, hsa] at h
  | some tunnel =>
    simp only [get_critical_number, hsa] at h
    have hlen : wl < values.length := seed_arg_drop_ne hsa
    obtain ⟨h1, h2, h3⟩ := scan_steps_index _ _ _ _ h
    rw [List.length_drop] at h2
    refine ⟨h1, by omega, ?_⟩
    rw [List.getElem?_drop] at h3
    rwa [show wl + (x.index - wl) = x.index by omega] at h3

/-- C5: for every window length at least 1 and every input of length at most
the window length (the empty input included), `get_critical_number` completes
normally and returns `None`. -/
theorem C5_short_input_safe (values : List Nat) (wl : Nat) (_h1 : 1 ≤ wl)
    (h2 : values.length ≤ wl) : get_critical_number values wl = some none := by
  have hd : values.drop wl = [] := List.drop_eq_nil_of_le h2
  simp [get_critical_number, seed_arg, hd]

theorem C5_short_input_safe_witness :
    1 ≤ 3 ∧ [(1:Nat), 2].length ≤ 3 ∧ get_critical_number [1, 2] 3 = some none :=
  ⟨by decide, by decide, C5_short_input_safe [1, 2] 3 (by decide) (by decide)⟩

/-- C6: a reported violation carries the 0-based absolute index of the value
in the (already filtered) input sequence, counting the first seeded value as
index 0; concretely, `[5, 4, 7, 9, 14]` with window length 3 yields
`Some((14, 4))`. -/
theorem C6_absolute_index :
    (∀ (values : List Nat) (wl : Nat) (x : IndexedStep),
      get_critical_number values wl = some (some x) →
      wl ≤ x.index ∧ x.index < values.length ∧ values[x.index]? = some x.step) ∧
    get_critical_number [5, 4, 7, 9, 14] 3 = some (some { step := 14, index := 4 }) :=
  ⟨fun _ _ _ h => get_critical_number_index h, by decide⟩

theorem C6_absolute_index_witness :
    3 ≤ 4 ∧ 4 < [(5:Nat), 4, 7, 9, 14].length ∧
      [(5:Nat), 4, 7, 9, 14][4]? = some 14 :=
  C6_absolute_index.1 [5, 4, 7, 9, 14] 3 { step := 14, index := 4 } (by decide)

/-- C8: the safety query is read-only: the state-passing form of the call
returns the receiver unchanged, so an immediate repeat of the same query on
the returned state yields the same result. -/
theorem C8_query_read_only (st : SortedTunnel) (c : Nat) :
    (is_tunnel_safe_call st c).2 = st ∧
    (is_tunnel_safe_call (is_tunnel_safe_call st c).2 c).1 =
      (is_tunnel_safe_call st c).1 :=
  ⟨rfl, rfl⟩

/-- C9: two runs of `get_critical_number` over the same values and window
length produce identical results. -/
theorem C9_deterministic (values : List Nat) (wl : Nat)
    (r1 r2 : Option (Option IndexedStep))
    (h1 : get_critical_number values wl = r1)
    (h2 : get_critical_number values wl = r2) : r1 = r2 :=
  h1 ▸ h2 ▸ rfl

theorem C9_deterministic_witness :
    (some (some { step := 14, index := 4 }) : Option (Option IndexedStep)) =
      some (some { step := 14, index := 4 }) :=
  C9_deterministic [5, 4, 7, 9, 14] 3 _ _ (by decide) (by decide)

/-- C10: with window length 0 and a nonempty input, the scan reaches
`SortedTunnel::new` on the empty vector, where `tunnel.len() - 1` underflows
`usize`; with window length at least 1, every vector actually passed to
`SortedTunnel::new` is nonempty, so the subtraction cannot underflow. -/
theorem C10_zero_window_underflow :
    (∀ values : List Nat, values ≠ [] →
      ∃ t, seed_arg values 0 = some t ∧ new_len_sub_underflows t = true) ∧
    (∀ (values : List Nat) (wl : Nat) (t : List Nat), 1 ≤ wl →
      seed_arg values wl = some t → new_len_sub_underflows t = false) := by
  constructor
  · intro values hv
    refine ⟨[], ?_, rfl⟩
    simp [seed_arg, hv]
  · intro values wl t hwl hs
    obtain ⟨ht, -⟩ := seed_arg_eq_some hs
    have hlen : wl < values.length := seed_arg_drop_ne hs
    subst ht
    simp only [new_len_sub_underflows, List.length_take, beq_eq_false_iff_ne, ne_eq]
    omega

theorem C10_zero_window_underflow_witness :
    (∃ t, seed_arg [(7:Nat)] 0 = some t ∧ new_len_sub_underflows t = true) ∧
    new_len_sub_underflows [(7:Nat), 8] = false :=
  ⟨C10_zero_window_underflow.1 [7] (by decide),
   C10_zero_window_underflow.2 [7, 8, 9] 2 [7, 8] (by decide) (by decide)⟩

/-! ## Occurrence bookkeeping -/

@[simp] lemma occs_nil : occs [] = [] := rfl

@[simp] lemma occs_cons (p : Nat × List Nat) (m : TunnelMap) :
    occs (p :: m) = (p.2.map fun a => (p.1, a)) ++ occs m := rfl

@[simp] lemma ages_of_nil : ages_of [] = [] := rfl

@[simp] lemma ages_of_cons (p : Nat × List Nat) (m : TunnelMap) :
    ages_of (p :: m) = p.2 ++ ages_of m := rfl

@[simp] lemma keys_of_nil : keys_of [] = [] := rfl

@[simp] lemma keys_of_cons (p : Nat × List Nat) (m : TunnelMap) :
    keys_of (p :: m) = p.1 :: keys_of m := rfl

lemma ages_of_eq_map_snd (m : TunnelMap) : ages_of m = (occs m).map Prod.snd := by
  induction m with
  | nil => rfl
  | cons p m ih =>
    simp only [ages_of_cons, occs_cons, List.map_append, List.map_map, ih]
    congr 1
    simp

lemma mem_ages_of {x : Nat} {m : TunnelMap} :
    x ∈ ages_of m ↔ ∃ p ∈ m, x ∈ p.2 := by
  simp [ages_of, List.mem_flatMap]

lemma snd_mem_ages_of {p : Nat × Nat} {m : TunnelMap} (h : p ∈ occs m) :
    p.2 ∈ ages_of m := by
  rw [ages_of_eq_map_snd]
  exact List.mem_map_of_mem Prod.snd h

lemma mem_occs {p : Nat × Nat} {m : TunnelMap} :
    p ∈ occs m ↔ ∃ l, (p.1, l) ∈ m ∧ p.2 ∈ l := by
  obtain ⟨x, a⟩ := p
  simp only [occs, List.mem_flatMap, List.mem_map]
  constructor
  · rintro ⟨⟨k, l⟩, hm, a0, ha0, heq⟩
    cases heq
    exact ⟨l, hm, ha0⟩
  · rintro ⟨l, hm, ha⟩
    exact ⟨(x, l), hm, a, ha, rfl⟩

/-! ## Lemmas about `add_duplicate` -/

lemma occs_add_duplicate (m : TunnelMap) (s a : Nat) :
    (occs (add_duplicate m s a)).Perm ((s, a) :: occs m) := by
  induction m with
  | nil => simp [add_duplicate]
  | cons p m ih =>
    obtain ⟨k, ages⟩ := p
    by_cases h1 : s < k
    · simp [add_duplicate, h1]
    · by_cases h2 : s = k
      · subst h2
        simp only [add_duplicate, h1, if_neg, if_pos, ite_false, ite_true, if_true]
        simp only [occs_cons, List.map_append]
        rw [List.append_assoc]
        exact List.perm_middle.trans (by simp)
      · simp only [add_duplicate, if_neg h1, if_neg h2, occs_cons]
        exact ((List.Perm.append_left _ ih).trans List.perm_middle)

lemma ages_of_add_duplicate (m : TunnelMap) (s a : Nat) :
    (ages_of (add_duplicate m s a)).Perm (a :: ages_of m) := by
  rw [ages_of_eq_map_snd, ages_of_eq_map_snd m]
  simpa using (occs_add_duplicate m s a).map Prod.snd

lemma add_duplicate_cons_lt {k s : Nat} (ages : List Nat) (m : TunnelMap) (a : Nat)
    (h : s < k) :
    add_duplicate ((k, ages) :: m) s a = (s, [a]) :: (k, ages) :: m := by
  simp [add_duplicate, h]

lemma add_duplicate_cons_eq (k : Nat) (ages : List Nat) (m : TunnelMap) (a : Nat) :
    add_duplicate ((k, ages) :: m) k a = (k, ages ++ [a]) :: m := by
  simp [add_duplicate, lt_irrefl]

lemma add_duplicate_cons_gt {k s : Nat} (ages : List Nat) (m : TunnelMap) (a : Nat)
    (h : k < s) :
    add_duplicate ((k, ages) :: m) s a = (k, ages) :: add_duplicate m s a := by
  have h1 : ¬ s < k := by omega
  have h2 : ¬ s = k := by omega
  simp [add_duplicate, h1, h2]

lemma mem_keys_of_add_duplicate {m : TunnelMap} {s a x : Nat}
    (h : x ∈ keys_of (add_duplicate m s a)) : x = s ∨ x ∈ keys_of m := by
  induction m with
  | nil => simpa [add_duplicate] using h
  | cons p m ih =>
    obtain ⟨k, ages⟩ := p
    rcases Nat.lt_trichotomy s k with h1 | h1 | h1
    · rw [add_duplicate_cons_lt ages m a h1] at h
      simp only [keys_of_cons, List.mem_cons] at h ⊢
      tauto
    · subst h1
      rw [add_duplicate_cons_eq s ages m a] at h
      simp only [keys_of_cons, List.mem_cons] at h ⊢
      tauto
    · rw [add_duplicate_cons_gt ages m a h1] at h
      simp only [keys_of_cons, List.mem_cons] at h ⊢
      rcases h with h | h
      · tauto
      · rcases ih h with h | h <;> tauto

lemma keys_of_add_duplicate_sorted {m : TunnelMap} {s a : Nat}
    (h : (keys_of m).Pairwise (· < ·)) :
    (keys_of (add_duplicate m s a)).Pairwise (· < ·) := by
  induction m with
  | nil => simp [add_duplicate]
  | cons p m ih =>
    obtain ⟨k, ages⟩ := p
    simp only [keys_of_cons, List.pairwise_cons] at h
    obtain ⟨hk, hm⟩ := h
    rcases Nat.lt_trichotomy s k with h1 | h1 | h1
    · rw [add_duplicate_cons_lt ages m a h1]
      simp only [keys_of_cons, List.pairwise_cons]
      refine ⟨?_, hk, hm⟩
      intro x hx
      rcases List.mem_cons.1 hx with rfl | hx
      · exact h1
      · exact h1.trans (hk x hx)
    · subst h1
      rw [add_duplicate_cons_eq s ages m a]
      simp only [keys_of_cons, List.pairwise_cons]
      exact ⟨hk, hm⟩
    · rw [add_duplicate_cons_gt ages m a h1]
      simp only [keys_of_cons, List.pairwise_cons]
      refine ⟨?_, ih hm⟩
      intro x hx
      rcases mem_keys_of_add_duplicate hx with rfl | hx
      · omega
      · exact hk x hx

lemma mem_add_duplicate {m : TunnelMap} {s a : Nat} {p : Nat × List Nat}
    (h : p ∈ add_duplicate m s a) :
    p ∈ m ∨ p = (s, [a]) ∨ ∃ ages, p = (s, ages ++ [a]) ∧ (s, ages) ∈ m := by
  induction m with
  | nil => simpa [add_duplicate] using h
  | cons q m ih =>
    obtain ⟨k, ages⟩ := q
    rcases Nat.lt_trichotomy s k with h1 | h1 | h1
    · rw [add_duplicate_cons_lt ages m a h1] at h
      simp only [List.mem_cons] at h
      rcases h with h | h | h
      · subst h; tauto
      · subst h; exact Or.inl (List.mem_cons_self _ _)
      · exact Or.inl (List.mem_cons_of_mem _ h)
    · subst h1
      rw [add_duplicate_cons_eq s ages m a] at h
      simp only [List.mem_cons] at h
      rcases h with h | h
      · exact Or.inr (Or.inr ⟨ages, h, List.mem_cons_self _ _⟩)
      · exact Or.inl (List.mem_cons_of_mem _ h)
    · rw [add_duplicate_cons_gt ages m a h1] at h
      simp only [List.mem_cons] at h
      rcases h with h | h
      · subst h; exact Or.inl (List.mem_cons_self _ _)
      · rcases ih h with h | h | ⟨ages1, rfl, hm⟩
        · exact Or.inl (List.mem_cons_of_mem _ h)
        · tauto
        · exact Or.inr (Or.inr ⟨ages1, rfl, List.mem_cons_of_mem _ hm⟩)

lemma add_duplicate_ne {m : TunnelMap} {s a : Nat}
    (h : ∀ p ∈ m, p.2 ≠ []) : ∀ p ∈ add_duplicate m s a, p.2 ≠ [] := by
  intro p hp
  rcases mem_add_duplicate hp with hm | rfl | ⟨ages, rfl, -⟩
  · exact h p hm
  · simp
  · simp

lemma add_duplicate_asort {m : TunnelMap} {s a : Nat}
    (h : ∀ p ∈ m, p.2.Pairwise (· < ·))
    (hb : ∀ x ∈ ages_of m, x < a) :
    ∀ p ∈ add_duplicate m s a, p.2.Pairwise (· < ·) := by
  intro p hp
  rcases mem_add_duplicate hp with hm | rfl | ⟨ages, rfl, hm⟩
  · exact h p hm
  · simp
  · simp only [List.pairwise_append, List.pairwise_cons, List.mem_singleton]
    refine ⟨h _ hm, by simp, ?_⟩
    intro x hx y hy
    subst hy
    exact hb x (mem_ages_of.2 ⟨(s, ages), hm, hx⟩)

/-! ## Seeding establishes the window invariant -/

lemma seed_steps_core :
    ∀ (l : List Nat) (m : TunnelMap) (j : Nat),
      (keys_of m).Pairwise (· < ·) →
      (∀ p ∈ m, p.2 ≠ []) →
      (∀ p ∈ m, p.2.Pairwise (· < ·)) →
      (∀ x ∈ ages_of m, x < j) →
      (keys_of (seed_steps m j l)).Pairwise (· < ·) ∧
      (∀ p ∈ seed_steps m j l, p.2 ≠ []) ∧
      (∀ p ∈ seed_steps m j l, p.2.Pairwise (· < ·)) ∧
      (ages_of (seed_steps m j l)).Perm (ages_of m ++ List.range' j l.length)
  | [], m, j => by
    intro h1 h2 h3 _
    exact ⟨h1, h2, h3, by simp [seed_steps]⟩
  | v :: l, m, j => by
    intro h1 h2 h3 h4
    have hbound : ∀ x ∈ ages_of (add_duplicate m v j), x < j + 1 := by
      intro x hx
      have := (ages_of_add_duplicate m v j).mem_iff.1 hx
      rcases List.mem_cons.1 this with rfl | hx2
      · omega
      · exact (h4 x hx2).trans (by omega)
    obtain ⟨g1, g2, g3, g4⟩ :=
      seed_steps_core l (add_duplicate m v j) (j + 1)
        (keys_of_add_duplicate_sorted h1) (add_duplicate_ne h2)
        (add_duplicate_asort h3 h4) hbound
    refine ⟨g1, g2, g3, ?_⟩
    simp only [seed_steps, List.length_cons, List.range'_succ]
    refine g4.trans ?_
    refine (List.Perm.append_right _ (ages_of_add_duplicate m v j)).trans ?_
    exact List.perm_middle.symm

lemma new_wf {tunnel : List Nat} {N : Nat} (h : tunnel.length = N) :
    TunnelWF N (SortedTunnel.new tunnel) := by
  obtain ⟨g1, g2, g3, g4⟩ :=
    seed_steps_core tunnel [] 0 (by simp) (by simp) (by simp) (by simp)
  refine ⟨by simp [SortedTunnel.new, h], g1, g2, g3, ?_⟩
  simp only [SortedTunnel.new]
  refine g4.trans ?_
  simp [List.range_eq_range', h]

/-! ## Eviction lemmas -/

lemma find_oldest_mem :
    ∀ {m : TunnelMap} {k : Nat}, find_oldest m = some k →
      ∃ ages, (k, ages) ∈ m ∧ 0 ∈ ages
  | [], k => by simp [find_oldest]
  | (k1, ages1) :: rest, k => by
    intro h
    rw [find_oldest] at h
    by_cases h0 : 0 ∈ ages1
    · rw [if_pos h0] at h
      cases h
      exact ⟨ages1, List.mem_cons_self _ _, h0⟩
    · rw [if_neg h0] at h
      obtain ⟨ages, hm, hz⟩ := find_oldest_mem h
      exact ⟨ages, List.mem_cons_of_mem _ hm, hz⟩

lemma find_oldest_isSome :
    ∀ {m : TunnelMap}, 0 ∈ ages_of m → ∃ k, find_oldest m = some k
  | [] => by simp
  | (k1, ages1) :: rest => by
    intro h
    by_cases h0 : 0 ∈ ages1
    · exact ⟨k1, by rw [find_oldest, if_pos h0]⟩
    · have hrest : 0 ∈ ages_of rest := by
        simp only [ages_of_cons, List.mem_append] at h
        tauto
      obtain ⟨k, hk⟩ := find_oldest_isSome hrest
      exact ⟨k, by rw [find_oldest, if_neg h0]; exact hk⟩

lemma sorted_zero_head {l : List Nat} (hs : l.Pairwise (· < ·)) (h0 : 0 ∈ l) :
    ∃ t, l = 0 :: t := by
  cases l with
  | nil => simp at h0
  | cons a t =>
    rcases List.mem_cons.1 h0 with rfl | h0
    · exact ⟨t, rfl⟩
    · have := (List.pairwise_cons.1 hs).1 0 h0
      omega

lemma pop_front_at_occs :
    ∀ {m : TunnelMap} {k : Nat} {t : List Nat},
      (keys_of m).Pairwise (· < ·) → (k, 0 :: t) ∈ m →
      (occs m).Perm ((k, 0) :: occs (pop_front_at m k))
  | [], k, t => by simp
  | (k1, ages1) :: rest, k, t => by
    intro hkeys hm
    simp only [keys_of_cons, List.pairwise_cons] at hkeys
    obtain ⟨hk1, hrest⟩ := hkeys
    rcases List.mem_cons.1 hm with heq | hmem
    · injection heq with hk ha
      subst hk
      subst ha
      rw [pop_front_at, if_pos rfl]
      cases t with
      | nil => simp [List.isEmpty]
      | cons a0 t0 =>
        simp only [List.tail_cons, List.isEmpty_cons, occs_cons, List.map_cons,
          List.cons_append, Bool.false_eq_true, if_false]
        rfl
    · have hk : k ∈ keys_of rest := by
        have := List.mem_map_of_mem Prod.fst hmem
        simpa [keys_of] using this
      have hne : ¬ k1 = k := by
        have := hk1 k hk
        omega
      rw [pop_front_at, if_neg hne]
      simp only [occs_cons]
      exact (List.Perm.append_left _ (pop_front_at_occs hrest hmem)).trans
        List.perm_middle

lemma pop_front_at_keys_sublist :
    ∀ (m : TunnelMap) (k : Nat), List.Sublist (keys_of (pop_front_at m k)) (keys_of m)
  | [], _ => by simp [pop_front_at]
  | (k1, ages1) :: rest, k => by
    by_cases hne : k1 = k
    · rw [pop_front_at, if_pos hne]
      by_cases hte : ages1.tail.isEmpty
      · rw [if_pos hte]
        exact (List.sublist_cons_self _ _).trans (by rfl)
      · rw [if_neg hte]
        simp only [keys_of_cons]
        exact List.Sublist.refl _
    · rw [pop_front_at, if_neg hne]
      simp only [keys_of_cons]
      exact (pop_front_at_keys_sublist rest k).cons₂ _

lemma mem_pop_front_at :
    ∀ {m : TunnelMap} {k : Nat} {p : Nat × List Nat}, p ∈ pop_front_at m k →
      p ∈ m ∨ ∃ a0, (p.1, a0 :: p.2) ∈ m
  | [], k, p => by simp [pop_front_at]
  | (k1, ages1) :: rest, k, p => by
    intro hp
    by_cases hne : k1 = k
    · rw [pop_front_at, if_pos hne] at hp
      by_cases hte : ages1.tail.isEmpty
      · rw [if_pos hte] at hp
        exact Or.inl (List.mem_cons_of_mem _ hp)
      · rw [if_neg hte] at hp
        rcases List.mem_cons.1 hp with rfl | hp
        · cases ages1 with
          | nil => simp at hte
          | cons a0 t0 =>
            exact Or.inr ⟨a0, List.mem_cons_self _ _⟩
        · exact Or.inl (List.mem_cons_of_mem _ hp)
    · rw [pop_front_at, if_neg hne] at hp
      rcases List.mem_cons.1 hp with rfl | hp
      · exact Or.inl (List.mem_cons_self _ _)
      · rcases mem_pop_front_at hp with h | ⟨a0, h⟩
        · exact Or.inl (List.mem_cons_of_mem _ h)
        · exact Or.inr ⟨a0, List.mem_cons_of_mem _ h⟩

lemma pop_front_at_ne :
    ∀ {m : TunnelMap} {k : Nat}, (∀ p ∈ m, p.2 ≠ []) →
      ∀ p ∈ pop_front_at m k, p.2 ≠ []
  | [], k => by simp [pop_front_at]
  | (k1, ages1) :: rest, k => by
    intro h p hp
    by_cases hne : k1 = k
    · rw [pop_front_at, if_pos hne] at hp
      by_cases hte : ages1.tail.isEmpty
      · rw [if_pos hte] at hp
        exact h p (List.mem_cons_of_mem _ hp)
      · rw [if_neg hte] at hp
        rcases List.mem_cons.1 hp with rfl | hp
        · show ages1.tail ≠ []
          intro hc
          exact hte (by rw [hc]; rfl)
        · exact h p (List.mem_cons_of_mem _ hp)
    · rw [pop_front_at, if_neg hne] at hp
      rcases List.mem_cons.1 hp with rfl | hp
      · exact h _ (List.mem_cons_self _ _)
      · exact pop_front_at_ne (fun q hq => h q (List.mem_cons_of_mem _ hq)) p hp

lemma pop_front_at_asort {m : TunnelMap} {k : Nat}
    (h : ∀ p ∈ m, p.2.Pairwise (· < ·)) :
    ∀ p ∈ pop_front_at m k, p.2.Pairwise (· < ·) := by
  intro p hp
  rcases mem_pop_front_at hp with hm | ⟨a0, hm⟩
  · exact h p hm
  · exact List.Pairwise.sublist (List.sublist_cons_self a0 p.2) (h _ hm)

/-! ## Lemmas about `dec_ages` -/

lemma occs_dec_ages (m : TunnelMap) :
    occs (dec_ages m) = (occs m).map fun p => (p.1, p.2 - 1) := by
  induction m with
  | nil => rfl
  | cons p m ih =>
    obtain ⟨k, ages⟩ := p
    simp only [dec_ages, List.map_cons] at ih ⊢
    simp only [occs_cons, List.map_append, List.map_map, ih]
    congr 1

lemma keys_of_dec_ages (m : TunnelMap) : keys_of (dec_ages m) = keys_of m := by
  simp [keys_of, dec_ages, List.map_map, Function.comp]

lemma ages_of_dec_ages (m : TunnelMap) :
    ages_of (dec_ages m) = (ages_of m).map fun a => a - 1 := by
  rw [ages_of_eq_map_snd, ages_of_eq_map_snd, occs_dec_ages, List.map_map,
    List.map_map]
  rfl

lemma mem_dec_ages {m : TunnelMap} {p : Nat × List Nat} (h : p ∈ dec_ages m) :
    ∃ q ∈ m, p = (q.1, q.2.map fun a => a - 1) := by
  obtain ⟨q, hq, heq⟩ := List.mem_map.1 h
  exact ⟨q, hq, heq.symm⟩

/-! ## Eviction succeeds and preserves the invariant -/

lemma remove_oldest_spec {N : Nat} {st : SortedTunnel} (h : TunnelWF N st)
    (hN : 1 ≤ N) :
    ∃ k, find_oldest st.tunnel_map = some k ∧
      st.remove_oldest_step =
        some { st with tunnel_map := dec_ages (pop_front_at st.tunnel_map k) } ∧
      (occs st.tunnel_map).Perm ((k, 0) :: occs (pop_front_at st.tunnel_map k)) ∧
      (ages_of (pop_front_at st.tunnel_map k)).Perm
        ((List.range (N - 1)).map Nat.succ) := by
  have h0 : (0 : Nat) ∈ ages_of st.tunnel_map := by
    rw [h.perm.mem_iff]
    exact List.mem_range.2 (by omega)
  obtain ⟨k, hfind⟩ := find_oldest_isSome h0
  obtain ⟨ages, hm, hz⟩ := find_oldest_mem hfind
  obtain ⟨t, rfl⟩ := sorted_zero_head (h.asort _ hm) hz
  have hocc := pop_front_at_occs h.keys hm
  have hages : (ages_of st.tunnel_map).Perm
      (0 :: ages_of (pop_front_at st.tunnel_map k)) := by
    have h1 := hocc.map Prod.snd
    rw [List.map_cons] at h1
    rw [ages_of_eq_map_snd, ages_of_eq_map_snd]
    exact h1
  have hperm : (ages_of (pop_front_at st.tunnel_map k)).Perm
      ((List.range (N - 1)).map Nat.succ) := by
    have h2 : (0 :: ages_of (pop_front_at st.tunnel_map k)).Perm (List.range N) :=
      hages.symm.trans h.perm
    rw [show N = (N - 1) + 1 by omega, List.range_succ_eq_map] at h2
    exact h2.cons_inv
  refine ⟨k, hfind, ?_, hocc, hperm⟩
  simp only [SortedTunnel.remove_oldest_step, hfind]

lemma shift_right_spec {N : Nat} {st : SortedTunnel} (h : TunnelWF N st)
    (hN : 1 ≤ N) (v : Nat) :
    ∃ st1 k rest0, st.shift_right v = some st1 ∧ TunnelWF N st1 ∧
      (occs st.tunnel_map).Perm ((k, 0) :: rest0) ∧
      (∀ p ∈ rest0, 1 ≤ p.2) ∧
      (occs st1.tunnel_map).Perm
        ((v, N - 1) :: rest0.map fun p => (p.1, p.2 - 1)) := by
  obtain ⟨k, hfind, hrem, hocc, hperm⟩ := remove_oldest_spec h hN
  have hge1 : ∀ x ∈ ages_of (pop_front_at st.tunnel_map k), 1 ≤ x := by
    intro x hx
    obtain ⟨y, -, rfl⟩ := List.mem_map.1 (hperm.mem_iff.1 hx)
    omega
  have hshift : st.shift_right v = some
      { st with tunnel_map := (add_duplicate (dec_ages (pop_front_at st.tunnel_map k)) v st.tunnel_length) } := by
    simp only [SortedTunnel.shift_right, hrem]
  have hne1 : ∀ p ∈ dec_ages (pop_front_at st.tunnel_map k), p.2 ≠ [] := by
    intro p hp
    obtain ⟨q, hq, rfl⟩ := mem_dec_ages hp
    intro hc
    exact pop_front_at_ne h.ne q hq (List.map_eq_nil_iff.1 hc)
  have hasort1 : ∀ p ∈ dec_ages (pop_front_at st.tunnel_map k),
      p.2.Pairwise (· < ·) := by
    intro p hp
    obtain ⟨q, hq, rfl⟩ := mem_dec_ages hp
    have hqs := pop_front_at_asort h.asort q hq
    have hq1 : ∀ x ∈ q.2, 1 ≤ x :=
      fun x hx => hge1 x (mem_ages_of.2 ⟨q, hq, hx⟩)
    simp only [List.pairwise_map]
    exact List.Pairwise.imp_of_mem
      (fun ha hb hl => by have := hq1 _ ha; omega) hqs
  have hdk : ages_of (dec_ages (pop_front_at st.tunnel_map k)) =
      (ages_of (pop_front_at st.tunnel_map k)).map fun a => a - 1 :=
    ages_of_dec_ages _
  have hdperm : (ages_of (dec_ages (pop_front_at st.tunnel_map k))).Perm
      (List.range (N - 1)) := by
    rw [hdk]
    refine (hperm.map _).trans ?_
    rw [List.map_map]
    have : ((fun a => a - 1) ∘ Nat.succ) = id := by
      funext x
      simp
    rw [this, List.map_id]
  have hbound : ∀ x ∈ ages_of (dec_ages (pop_front_at st.tunnel_map k)),
      x < st.tunnel_length := by
    intro x hx
    have := List.mem_range.1 (hdperm.mem_iff.1 hx)
    rw [h.tl]
    exact this
  refine ⟨_, k, occs (pop_front_at st.tunnel_map k), hshift, ?_, hocc, ?_, ?_⟩
  · refine ⟨h.tl, ?_, ?_, ?_, ?_⟩
    · exact keys_of_add_duplicate_sorted
        (by rw [keys_of_dec_ages]
            exact List.Pairwise.sublist (pop_front_at_keys_sublist _ _) h.keys)
    · exact add_duplicate_ne hne1
    · exact add_duplicate_asort hasort1 hbound
    · refine (ages_of_add_duplicate _ _ _).trans ?_
      rw [h.tl]
      refine (List.Perm.cons _ hdperm).trans ?_
      rw [show N = (N - 1) + 1 by omega, List.range_succ]
      have hp : (List.range ((N - 1) + 1 - 1) ++ (N - 1) :: []).Perm
          ((N - 1) :: (List.range ((N - 1) + 1 - 1) ++ [])) := List.perm_middle
      simpa using hp.symm
  · intro p hp
    exact hge1 p.2 (snd_mem_ages_of hp)
  · refine (occs_add_duplicate _ _ _).trans ?_
    rw [occs_dec_ages, h.tl]

lemma reachable_wf {N : Nat} {st : SortedTunnel} (hN : 1 ≤ N)
    (hr : Reachable N st) : TunnelWF N st := by
  induction hr with
  | seed tunnel h => exact new_wf h
  | shift st st1 v h1 h2 ih =>
    obtain ⟨st2, k, rest0, heq, hwf, -⟩ := shift_right_spec ih hN v
    rw [heq] at h2
    cases h2
    exact hwf

/-- C3: in every window reachable by seeding with `N` values and any number
of shifts, the structure holds exactly `N` occurrences and their ages are a
permutation of `0..N-1`, no two occurrences sharing an age. -/
theorem C3_window_invariant (N : Nat) (st : SortedTunnel) (hN : 1 ≤ N)
    (hr : Reachable N st) :
    (occs st.tunnel_map).length = N ∧
    (ages_of st.tunnel_map).Perm (List.range N) ∧
    (ages_of st.tunnel_map).Nodup := by
  have h := reachable_wf hN hr
  have hlen : (ages_of st.tunnel_map).length = N := by
    rw [h.perm.length_eq, List.length_range]
  have hlen2 : (occs st.tunnel_map).length = N := by
    rw [ages_of_eq_map_snd, List.length_map] at hlen
    exact hlen
  exact ⟨hlen2, h.perm, h.perm.nodup_iff.2 (List.nodup_range N)⟩

theorem C3_window_invariant_witness :
    (occs (SortedTunnel.new [(5:Nat), 5]).tunnel_map).length = 2 ∧
    (ages_of (SortedTunnel.new [(5:Nat), 5]).tunnel_map).Perm (List.range 2) ∧
    (ages_of (SortedTunnel.new [(5:Nat), 5]).tunnel_map).Nodup :=
  C3_window_invariant 2 (SortedTunnel.new [5, 5]) (by decide)
    (Reachable.seed [5, 5] rfl)

/-- C4: on any reachable window of `N` occurrences, `shift_right v` succeeds
and removes exactly the occurrence with age 0 (by age identity, duplicates
included), decrements every remaining occurrence's age by one without
touching its value, and inserts `v` as a fresh occurrence with age `N - 1`. -/
theorem C4_shift_replaces_oldest (N : Nat) (st : SortedTunnel) (v : Nat)
    (hN : 1 ≤ N) (hr : Reachable N st) :
    ∃ st1 w rest0, st.shift_right v = some st1 ∧
      (occs st.tunnel_map).Perm ((w, 0) :: rest0) ∧
      (∀ p ∈ rest0, 1 ≤ p.2) ∧
      (occs st1.tunnel_map).Perm
        ((v, N - 1) :: rest0.map fun p => (p.1, p.2 - 1)) := by
  have h := reachable_wf hN hr
  obtain ⟨st1, k, rest0, hshift, -, hocc, hge, hocc1⟩ := shift_right_spec h hN v
  exact ⟨st1, k, rest0, hshift, hocc, hge, hocc1⟩

theorem C4_shift_replaces_oldest_witness :
    ∃ st1 w rest0, (SortedTunnel.new [(1:Nat), 2]).shift_right 7 = some st1 ∧
      (occs (SortedTunnel.new [(1:Nat), 2]).tunnel_map).Perm ((w, 0) :: rest0) ∧
      (∀ p ∈ rest0, 1 ≤ p.2) ∧
      (occs st1.tunnel_map).Perm
        ((7, 2 - 1) :: rest0.map fun p => (p.1, p.2 - 1)) :=
  C4_shift_replaces_oldest 2 (SortedTunnel.new [1, 2]) 7 (by decide)
    (Reachable.seed [1, 2] rfl)

/-- C7: under correct use (any reachable window), eviction always finds the
age-0 occurrence, so the panic branch of `remove_oldest_step` is unreachable
and every remaining age is at least 1 when the decrement sweep runs (no
`usize` underflow); `shift_right` therefore always succeeds. -/
theorem C7_eviction_panic_unreachable (N : Nat) (st : SortedTunnel) (v : Nat)
    (hN : 1 ≤ N) (hr : Reachable N st) :
    (∃ k, find_oldest st.tunnel_map = some k ∧
      ∀ a ∈ ages_of (pop_front_at st.tunnel_map k), 1 ≤ a) ∧
    st.remove_oldest_step.isSome = true ∧
    ∃ st1, st.shift_right v = some st1 := by
  have h := reachable_wf hN hr
  obtain ⟨k, hfind, hrem, -, hperm⟩ := remove_oldest_spec h hN
  obtain ⟨st1, k1, rest0, hshift, -, -, -, -⟩ := shift_right_spec h hN v
  refine ⟨⟨k, hfind, ?_⟩, by rw [hrem]; rfl, ⟨st1, hshift⟩⟩
  intro a ha
  obtain ⟨y, -, rfl⟩ := List.mem_map.1 (hperm.mem_iff.1 ha)
  omega

theorem C7_eviction_panic_unreachable_witness :
    (∃ k, find_oldest (SortedTunnel.new [(3:Nat)]).tunnel_map = some k ∧
      ∀ a ∈ ages_of (pop_front_at (SortedTunnel.new [(3:Nat)]).tunnel_map k),
        1 ≤ a) ∧
    (SortedTunnel.new [(3:Nat)]).remove_oldest_step.isSome = true ∧
    ∃ st1, (SortedTunnel.new [(3:Nat)]).shift_right 9 = some st1 :=
  C7_eviction_panic_unreachable 1 (SortedTunnel.new [3]) 9 (by decide)
    (Reachable.seed [3] rfl)

/-! ## Characterisation of the pair-sum query -/

lemma mem_keys_of_mem {p : Nat × List Nat} {m : TunnelMap} (h : p ∈ m) :
    p.1 ∈ keys_of m :=
  List.mem_map_of_mem Prod.fst h

lemma mem_occs_head {a α : Nat} {ages : List Nat} {rest : TunnelMap}
    (h : α ∈ ages) : (a, α) ∈ occs ((a, ages) :: rest) := by
  rw [occs_cons]
  exact List.mem_append_left _ (List.mem_map_of_mem _ h)

lemma mem_occs_tail {p : Nat × Nat} {q : Nat × List Nat} {rest : TunnelMap}
    (h : p ∈ occs rest) : p ∈ occs (q :: rest) := by
  rw [occs_cons]
  exact List.mem_append_right _ h

lemma nodup_two_mem {l : List Nat} (hnd : l.Nodup) (hlen : 1 < l.length) :
    ∃ α β, α ∈ l ∧ β ∈ l ∧ α ≠ β := by
  match l, hnd, hlen with
  | α :: β :: t, hnd, _ =>
    refine ⟨α, β, List.mem_cons_self _ _,
      List.mem_cons_of_mem _ (List.mem_cons_self _ _), ?_⟩
    intro he
    subst he
    rw [List.nodup_cons] at hnd
    exact hnd.1 (List.mem_cons_self _ _)

lemma two_mem_length {l : List Nat} {α β : Nat} (ha : α ∈ l) (hb : β ∈ l)
    (hne : α ≠ β) : 1 < l.length := by
  cases l with
  | nil => simp at ha
  | cons x t =>
    cases t with
    | nil =>
      simp only [List.mem_singleton] at ha hb
      subst ha
      subst hb
      exact absurd rfl hne
    | cons y t2 => simp [List.length_cons]

lemma entry_unique :
    ∀ {m : TunnelMap} {k : Nat} {l1 l2 : List Nat},
      (keys_of m).Nodup → (k, l1) ∈ m → (k, l2) ∈ m → l1 = l2
  | [], k, l1, l2 => by simp
  | (k0, l0) :: rest, k, l1, l2 => by
    intro hnd h1 h2
    simp only [keys_of_cons, List.nodup_cons] at hnd
    rcases List.mem_cons.1 h1 with he1 | hm1 <;>
      rcases List.mem_cons.1 h2 with he2 | hm2
    · injection he1 with e1 e2
      injection he2 with e3 e4
      rw [e2, e4]
    · injection he1 with e1 e2
      subst e1
      exact absurd (mem_keys_of_mem hm2) hnd.1
    · injection he2 with e3 e4
      subst e3
      exact absurd (mem_keys_of_mem hm1) hnd.1
    · exact entry_unique hnd.2 hm1 hm2

lemma pair_scan_sound :
    ∀ {rest : TunnelMap} {a c : Nat}, pair_scan a c rest = true →
      ∃ b l, (b, l) ∈ rest ∧ a + b = c
  | [], a, c => by simp [pair_scan]
  | (b, l) :: rest, a, c => by
    intro h
    by_cases h1 : a + b = c
    · exact ⟨b, l, List.mem_cons_self _ _, h1⟩
    · rw [pair_scan, if_neg h1] at h
      by_cases h2 : c < a + b
      · rw [if_pos h2] at h
        exact absurd h (by simp)
      · rw [if_neg h2] at h
        obtain ⟨b1, l1, hm, he⟩ := pair_scan_sound h
        exact ⟨b1, l1, List.mem_cons_of_mem _ hm, he⟩

lemma pair_scan_complete :
    ∀ {rest : TunnelMap} {a c y : Nat} {ly : List Nat},
      (keys_of rest).Pairwise (· < ·) → (y, ly) ∈ rest → a + y = c →
      pair_scan a c rest = true
  | [], a, c, y, ly => by simp
  | (b, l) :: rest, a, c, y, ly => by
    intro hkeys hm hsum
    rw [pair_scan]
    by_cases h1 : a + b = c
    · rw [if_pos h1]
    · rw [if_neg h1]
      simp only [keys_of_cons, List.pairwise_cons] at hkeys
      have hmem : (y, ly) ∈ rest := by
        rcases List.mem_cons.1 hm with heq | hmem
        · injection heq with e1 e2
          subst e1
          exact absurd hsum h1
        · exact hmem
      have hby : b < y := hkeys.1 y (mem_keys_of_mem hmem)
      rw [if_neg (by omega : ¬ c < a + b)]
      exact pair_scan_complete hkeys.2 hmem hsum

lemma safe_scan_sound :
    ∀ {m : TunnelMap} {c : Nat},
      (∀ p ∈ m, p.2 ≠ []) → (ages_of m).Nodup → safe_scan c m = true →
      HasPair m c
  | [], c => by simp [safe_scan]
  | (a, ages) :: rest, c => by
    intro hne hnd h
    rw [safe_scan] at h
    simp only [ages_of_cons] at hnd
    rw [List.nodup_append] at hnd
    obtain ⟨hnda, hndrest, hdisj⟩ := hnd
    by_cases h1 : c ≤ a
    · rw [if_pos h1] at h
      exact absurd h (by simp)
    · rw [if_neg h1] at h
      by_cases h2 : 1 < ages.length ∧ a * 2 = c
      · obtain ⟨hlen, hmul⟩ := h2
        obtain ⟨α, β, ha, hb, hab⟩ := nodup_two_mem hnda hlen
        exact ⟨(a, α), mem_occs_head ha, (a, β), mem_occs_head hb, hab,
          by omega⟩
      · rw [if_neg h2] at h
        by_cases h3 : pair_scan a c rest = true
        · obtain ⟨b, l, hm, hsum⟩ := pair_scan_sound h3
          obtain ⟨α, hα⟩ := List.exists_mem_of_ne_nil ages
            (hne (a, ages) (List.mem_cons_self _ _))
          obtain ⟨β, hβ⟩ := List.exists_mem_of_ne_nil l
            (hne (b, l) (List.mem_cons_of_mem _ hm))
          have hβr : β ∈ ages_of rest := mem_ages_of.2 ⟨(b, l), hm, hβ⟩
          have hab : α ≠ β := fun he => hdisj hα (he ▸ hβr)
          exact ⟨(a, α), mem_occs_head hα, (b, β),
            mem_occs_tail (mem_occs.2 ⟨l, hm, hβ⟩), hab, hsum⟩
        · rw [if_neg h3] at h
          obtain ⟨p, hp, q, hq, hne2, hsum⟩ :=
            safe_scan_sound (fun q hq => hne q (List.mem_cons_of_mem _ hq))
              hndrest h
          exact ⟨p, mem_occs_tail hp, q, mem_occs_tail hq, hne2, hsum⟩

lemma safe_scan_complete_eq :
    ∀ {m : TunnelMap} {x c : Nat} {lx : List Nat},
      (keys_of m).Pairwise (· < ·) → (x, lx) ∈ m → 1 < lx.length →
      x * 2 = c → x < c → safe_scan c m = true
  | [], x, c, lx => by simp
  | (k, ages) :: rest, x, c, lx => by
    intro hkeys hm hlen hmul hlt
    rw [safe_scan]
    simp only [keys_of_cons, List.pairwise_cons] at hkeys
    rcases List.mem_cons.1 hm with heq | hmem
    · injection heq with e1 e2
      subst e1
      subst e2
      rw [if_neg (by omega : ¬ c ≤ x), if_pos ⟨hlen, hmul⟩]
    · have hkx : k < x := hkeys.1 x (mem_keys_of_mem hmem)
      rw [if_neg (by omega : ¬ c ≤ k)]
      by_cases h2 : 1 < ages.length ∧ k * 2 = c
      · rw [if_pos h2]
      · rw [if_neg h2]
        by_cases h3 : pair_scan k c rest = true
        · rw [if_pos h3]
        · rw [if_neg h3]
          exact safe_scan_complete_eq hkeys.2 hmem hlen hmul hlt

lemma safe_scan_complete_lt :
    ∀ {m : TunnelMap} {x y c : Nat} {lx ly : List Nat},
      (keys_of m).Pairwise (· < ·) → (x, lx) ∈ m → (y, ly) ∈ m →
      x < y → x + y = c → safe_scan c m = true
  | [], x, y, c, lx, ly => by simp
  | (k, ages) :: rest, x, y, c, lx, ly => by
    intro hkeys hmx hmy hxy hsum
    rw [safe_scan]
    simp only [keys_of_cons, List.pairwise_cons] at hkeys
    rcases List.mem_cons.1 hmx with heqx | hmemx
    · injection heqx with e1 e2
      subst e1
      subst e2
      have hmy2 : (y, ly) ∈ rest := by
        rcases List.mem_cons.1 hmy with heqy | hy
        · injection heqy with f1 f2
          exact absurd f1 (by omega)
        · exact hy
      rw [if_neg (by omega : ¬ c ≤ x)]
      by_cases h2 : 1 < lx.length ∧ x * 2 = c
      · rw [if_pos h2]
      · rw [if_neg h2, if_pos (pair_scan_complete hkeys.2 hmy2 hsum)]
    · have hkx : k < x := hkeys.1 x (mem_keys_of_mem hmemx)
      have hmy2 : (y, ly) ∈ rest := by
        rcases List.mem_cons.1 hmy with heqy | hy
        · injection heqy with f1 f2
          exact absurd f1 (by omega)
        · exact hy
      rw [if_neg (by omega : ¬ c ≤ k)]
      by_cases h2 : 1 < ages.length ∧ k * 2 = c
      · rw [if_pos h2]
      · rw [if_neg h2]
        by_cases h3 : pair_scan k c rest = true
        · rw [if_pos h3]
        · rw [if_neg h3]
          exact safe_scan_complete_lt hkeys.2 hmemx hmy2 hxy hsum

lemma safe_scan_char {N : Nat} {st : SortedTunnel} (h : TunnelWF N st)
    {c : Nat} (hc : 1 ≤ c) :
    st.is_tunnel_safe c = true ↔ HasPair st.tunnel_map c := by
  have hnd : (ages_of st.tunnel_map).Nodup :=
    h.perm.nodup_iff.2 (List.nodup_range N)
  constructor
  · exact fun ht => safe_scan_sound h.ne hnd ht
  · rintro ⟨p, hp, q, hq, hne, hsum⟩
    obtain ⟨lp, hlp, hap⟩ := mem_occs.1 hp
    obtain ⟨lq, hlq, haq⟩ := mem_occs.1 hq
    rcases Nat.lt_trichotomy p.1 q.1 with hlt | heq | hgt
    · exact safe_scan_complete_lt h.keys hlp hlq hlt hsum
    · have hknd : (keys_of st.tunnel_map).Nodup :=
        h.keys.imp (fun hab => Nat.ne_of_lt hab)
      rw [heq] at hlp
      have hll : lp = lq := entry_unique hknd hlp hlq
      subst hll
      have hlen : 1 < lp.length := two_mem_length hap haq hne
      exact safe_scan_complete_eq h.keys hlp hlen (by omega) (by omega)
    · exact safe_scan_complete_lt h.keys hlq hlp hgt (by omega)

lemma wf_sound {N : Nat} {st : SortedTunnel} {c : Nat} (h : TunnelWF N st)
    (ht : st.is_tunnel_safe c = true) : HasPair st.tunnel_map c :=
  safe_scan_sound h.ne (h.perm.nodup_iff.2 (List.nodup_range N)) ht

/-- C2 counterexample: the window seeded with `[0, 0]` is reachable, holds
two occurrences of value 0 at distinct ages whose sum is the candidate 0,
yet `is_tunnel_safe 0` returns false: the `candidate_a >= new_step` early
exit fires before the duplicate check. -/
theorem C2_candidate_zero_cex :
    Reachable 2 (SortedTunnel.new [0, 0]) ∧
    HasPair (SortedTunnel.new [0, 0]).tunnel_map 0 ∧
    (SortedTunnel.new [0, 0]).is_tunnel_safe 0 = false :=
  ⟨Reachable.seed [0, 0] rfl, by decide, by decide⟩

/-- C2 (amended): on every reachable window and every candidate of at least
1, `is_tunnel_safe` returns true iff two occurrences distinct by age sum to
the candidate (equal values at distinct ages may pair); in particular a
window holding two occurrences of value 1 answers true for candidate 2.
For candidate 0 the query returns false even when a zero pair exists. -/
theorem C2_query_iff_pair (N : Nat) (st : SortedTunnel) (c : Nat)
    (hN : 1 ≤ N) (hr : Reachable N st) (hc : 1 ≤ c) :
    (st.is_tunnel_safe c = true ↔ HasPair st.tunnel_map c) ∧
    (SortedTunnel.new [1, 1]).is_tunnel_safe 2 = true :=
  ⟨safe_scan_char (reachable_wf hN hr) hc, by decide⟩

theorem C2_query_iff_pair_witness :
    ((SortedTunnel.new [(1:Nat), 1]).is_tunnel_safe 2 = true ↔
      HasPair (SortedTunnel.new [(1:Nat), 1]).tunnel_map 2) ∧
    (SortedTunnel.new [1, 1]).is_tunnel_safe 2 = true :=
  C2_query_iff_pair 2 (SortedTunnel.new [1, 1]) 2 (by decide)
    (Reachable.seed [1, 1] rfl) (by decide)

/-! ## Scan trace -/

lemma scan_steps_trace (N : Nat) :
    ∀ (rest : List Nat) (st : SortedTunnel) (idx : Nat) (r : Option IndexedStep),
      TunnelWF N st → 1 ≤ N → scan_steps st idx rest = some r →
      (∀ x, r = some x → idx ≤ x.index ∧
        ∃ st1, shift_all st (rest.take (x.index - idx)) = some st1 ∧
          TunnelWF N st1 ∧ st1.is_tunnel_safe x.step = false) ∧
      (∀ j vj,
        j < (match r with | some x => x.index - idx | none => rest.length) →
        rest[j]? = some vj →
        ∃ stj, shift_all st (rest.take j) = some stj ∧ TunnelWF N stj ∧
          stj.is_tunnel_safe vj = true)
  | [], st, idx, r => by
    intro hwf hN h
    rw [scan_steps] at h
    have hr : r = none := by cases h; rfl
    subst hr
    refine ⟨fun x hx => absurd hx (by simp), fun j vj hj _ => ?_⟩
    simp only [List.length_nil] at hj
    omega
  | v :: rest, st, idx, r => by
    intro hwf hN h
    rw [scan_steps] at h
    by_cases hs : st.is_tunnel_safe v
    · rw [if_pos hs] at h
      obtain ⟨st1, k, rest0, heq, hwf1, -⟩ := shift_right_spec hwf hN v
      rw [heq] at h
      obtain ⟨ih1, ih2⟩ := scan_steps_trace N rest st1 (idx + 1) r hwf1 hN h
      constructor
      · intro x hx
        obtain ⟨hle, st2, hsa, hwf2, hfalse⟩ := ih1 x hx
        refine ⟨by omega, st2, ?_, hwf2, hfalse⟩
        rw [show x.index - idx = (x.index - (idx + 1)) + 1 by omega,
          List.take_succ_cons]
        simp only [shift_all, heq]
        exact hsa
      · intro j vj hj hvj
        cases j with
        | zero =>
          refine ⟨st, by simp [shift_all], hwf, ?_⟩
          simp only [List.getElem?_cons_zero] at hvj
          cases hvj
          exact hs
        | succ j0 =>
          cases r with
          | some x =>
            obtain ⟨hle, -⟩ := ih1 x rfl
            have hj2 : j0 + 1 < x.index - idx := hj
            have hj0 : j0 < x.index - (idx + 1) := by omega
            obtain ⟨stj, hsa, hwfj, htrue⟩ := ih2 j0 vj hj0 (by simpa using hvj)
            refine ⟨stj, ?_, hwfj, htrue⟩
            rw [List.take_succ_cons]
            simp only [shift_all, heq]
            exact hsa
          | none =>
            have hj2 : j0 + 1 < (v :: rest).length := hj
            have hj0 : j0 < rest.length := by simpa using hj2
            obtain ⟨stj, hsa, hwfj, htrue⟩ := ih2 j0 vj hj0 (by simpa using hvj)
            refine ⟨stj, ?_, hwfj, htrue⟩
            rw [List.take_succ_cons]
            simp only [shift_all, heq]
            exact hsa
    · rw [if_neg hs] at h
      have hr : r = some { step := v, index := idx } := by cases h; rfl
      subst hr
      constructor
      · intro x hx
        have hxe : x = { step := v, index := idx } := by cases hx; rfl
        subst hxe
        refine ⟨Nat.le_refl _, st, ?_, hwf, ?_⟩
        · simp [shift_all]
        · simp only [Bool.not_eq_true] at hs
          exact hs
      · intro j vj hj _
        simp only [Nat.sub_self] at hj
        omega

/-- C1 counterexample: on `[0, 0, 0]` with window length 2 the scan returns
`Some((0, 2))`, yet the window preceding index 2 (two occurrences of 0 at
distinct ages) does contain a pair of distinct occurrences summing to 0. -/
theorem C1_scan_cex :
    get_critical_number [0, 0, 0] 2 = some (some { step := 0, index := 2 }) ∧
    window_at [0, 0, 0] 2 2 = some (SortedTunnel.new [0, 0]) ∧
    HasPair (SortedTunnel.new [0, 0]).tunnel_map 0 :=
  ⟨by decide, by decide, by decide⟩

/-- C1 (amended): for window length at least 1, whenever the scan completes
normally: if it returns `Some((v, i))` then, unless `v = 0`, no two distinct
occurrences of the window preceding index `i` sum to `v`, and every
post-seed value before index `i` had such a pair in its then-current window;
if it returns `None`, every post-seed value had such a pair.  (The `v = 0`
escape is forced by the counterexample `[0, 0, 0]`.) -/
theorem C1_scan_correct (values : List Nat) (wl : Nat) (hwl : 1 ≤ wl)
    (r : Option IndexedStep) (h : get_critical_number values wl = some r) :
    (∀ x, r = some x →
      (∃ st, window_at values wl x.index = some st ∧
        (x.step = 0 ∨ ¬ HasPair st.tunnel_map x.step)) ∧
      (∀ j vj, wl ≤ j → j < x.index → values[j]? = some vj →
        ∃ stj, window_at values wl j = some stj ∧ HasPair stj.tunnel_map vj)) ∧
    (r = none → ∀ j vj, wl ≤ j → j < values.length → values[j]? = some vj →
      ∃ stj, window_at values wl j = some stj ∧ HasPair stj.tunnel_map vj) := by
  cases hsa : seed_arg values wl with
  | none =>
    simp only [get_critical_number, hsa] at h
    have hr : r = none := by cases h; rfl
    subst hr
    have hlen : values.length ≤ wl := by
      unfold seed_arg at hsa
      by_cases hd : values.drop wl = []
      · exact List.drop_eq_nil_iff.1 hd
      · rw [if_neg hd] at hsa
        exact absurd hsa (by simp)
    refine ⟨fun x hx => absurd hx (by simp), fun _ j vj hjl hjlen _ => ?_⟩
    omega
  | some tunnel =>
    simp only [get_critical_number, hsa] at h
    obtain ⟨ht, -⟩ := seed_arg_eq_some hsa
    subst ht
    have hlen : wl < values.length := seed_arg_drop_ne hsa
    have hwf : TunnelWF wl (SortedTunnel.new (values.take wl)) :=
      new_wf (by rw [List.length_take]; omega)
    obtain ⟨tr1, tr2⟩ :=
      scan_steps_trace wl (values.drop wl) (SortedTunnel.new (values.take wl))
        wl r hwf hwl h
    constructor
    · intro x hx
      subst hx
      obtain ⟨hle, st1, hsa1, hwf1, hfalse⟩ := tr1 x rfl
      constructor
      · refine ⟨st1, hsa1, ?_⟩
        by_cases hz : x.step = 0
        · exact Or.inl hz
        · refine Or.inr fun hp => ?_
          have := (safe_scan_char hwf1 (by omega)).2 hp
          rw [hfalse] at this
          exact absurd this (by simp)
      · intro j vj hjl hji hvj
        have hj0 : j - wl < x.index - wl := by omega
        have hvj2 : (values.drop wl)[j - wl]? = some vj := by
          rw [List.getElem?_drop, show wl + (j - wl) = j by omega]
          exact hvj
        obtain ⟨stj, hsaj, hwfj, htrue⟩ := tr2 (j - wl) vj hj0 hvj2
        exact ⟨stj, hsaj, wf_sound hwfj htrue⟩
    · intro hr j vj hjl hjlen hvj
      subst hr
      have hj0 : j - wl < (values.drop wl).length := by
        rw [List.length_drop]
        omega
      have hvj2 : (values.drop wl)[j - wl]? = some vj := by
        rw [List.getElem?_drop, show wl + (j - wl) = j by omega]
        exact hvj
      obtain ⟨stj, hsaj, hwfj, htrue⟩ := tr2 (j - wl) vj hj0 hvj2
      exact ⟨stj, hsaj, wf_sound hwfj htrue⟩

theorem C1_scan_correct_witness :
    (∀ x, (some { step := 14, index := 4 } : Option IndexedStep) = some x →
      (∃ st, window_at [5, 4, 7, 9, 14] 3 x.index = some st ∧
        (x.step = 0 ∨ ¬ HasPair st.tunnel_map x.step)) ∧
      (∀ j vj, 3 ≤ j → j < x.index → [(5:Nat), 4, 7, 9, 14][j]? = some vj →
        ∃ stj, window_at [5, 4, 7, 9, 14] 3 j = some stj ∧
          HasPair stj.tunnel_map vj)) ∧
    ((some { step := 14, index := 4 } : Option IndexedStep) = none →
      ∀ j vj, 3 ≤ j → j < [(5:Nat), 4, 7, 9, 14].length →
        [(5:Nat), 4, 7, 9, 14][j]? = some vj →
        ∃ stj, window_at [5, 4, 7, 9, 14] 3 j = some stj ∧
          HasPair stj.tunnel_map vj) :=
  C1_scan_correct [5, 4, 7, 9, 14] 3 (by decide)
    (some { step := 14, index := 4 }) (by decide)
